import Mathlib

/-!
Verification of the hybrid lexical+semantic retrieval pipeline
(`backend/` : chunker, BM25 keyword index, cosine semantic search, RRF rank
fusion, semantic rerank, rule-based query gate, JSON chunk store, and the
`/query` endpoint logic).

The Python sources are shallowly embedded here:
* text is modelled as `List Char` over the ASCII fragment (the repository's
  regexes and vocabularies are ASCII-only);
* Python floats are modelled as exact rationals `ℚ`; the two irrational
  primitives, `math.log` (used only by BM25's idf) and `np.linalg.norm`
  (used only to normalize vectors before a dot product), are abstracted as
  explicit function parameters `lg : ℚ → ℚ` and `nrm : List ℚ → ℚ`, so every
  theorem quantifying over them covers the real log/norm in particular;
* Python's stable `list.sort(key=..., reverse=True)` is modelled by
  `List.insertionSort` with the reflexive descending-by-score relation,
  which is the (unique) stable descending sort;
* Python dicts are modelled as insertion-ordered association lists.
-/

namespace Rag

/-! ## Character classes (ASCII fragment of Python's `str` / `re` semantics) -/

/-- ASCII decimal digit, `\d` of `re` restricted to ASCII. -/
def isDigitCh (c : Char) : Bool := '0' ≤ c ∧ c ≤ '9'

/-- ASCII letter. -/
def isAlphaCh (c : Char) : Bool := ('a' ≤ c ∧ c ≤ 'z') ∨ ('A' ≤ c ∧ c ≤ 'Z')

/-- ASCII lowercase letter, the class `[a-z]`. -/
def isLowerCh (c : Char) : Bool := 'a' ≤ c ∧ c ≤ 'z'

/-- The class `[a-zA-Z0-9]`. -/
def isAlnumCh (c : Char) : Bool := isAlphaCh c || isDigitCh c

/-- Python `re` word character `\w` (ASCII): `[A-Za-z0-9_]`. -/
def isWordCh (c : Char) : Bool := isAlnumCh c || c = '_'

/-- Python whitespace `\s` (ASCII): space, tab, newline, CR, VT, FF. -/
def isSpaceCh (c : Char) : Bool :=
  c = ' ' || c = '\t' || c = '\n' || c = '\x0d' || c = '\x0b' || c = '\x0c'

/-- ASCII lowercasing, `str.lower()` on the ASCII fragment. -/
def lowerCh (c : Char) : Char := if 'A' ≤ c ∧ c ≤ 'Z' then Char.ofNat (c.toNat + 32) else c

/-- `text.lower()`. -/
def lowerStr (t : List Char) : List Char := t.map lowerCh

/-- `str.strip()`: drop leading and trailing whitespace. -/
def pstrip (t : List Char) : List Char :=
  ((t.dropWhile isSpaceCh).reverse.dropWhile isSpaceCh).reverse

/-- `str.split()`, character-by-character: `cur` is the current word
(reversed). -/
def pysplitAux (cur : List Char) : List Char → List (List Char)
  | [] => if cur = [] then [] else [cur.reverse]
  | c :: cs =>
    if isSpaceCh c then
      if cur = [] then pysplitAux [] cs else cur.reverse :: pysplitAux [] cs
    else pysplitAux (c :: cur) cs

/-- `str.split()` with no argument: split on whitespace runs, dropping empties. -/
def pysplit (t : List Char) : List (List Char) := pysplitAux [] t

/-- `" ".join(parts)`. -/
def joinSpace : List (List Char) → List Char
  | [] => []
  | [p] => p
  | p :: ps => p ++ ' ' :: joinSpace ps

/-- Maximal runs of characters satisfying `p` (used to model `\b`-delimited
regex token extraction: a maximal word-character run). -/
def runsOfAux (p : Char → Bool) (cur : List Char) : List Char → List (List Char)
  | [] => if cur = [] then [] else [cur.reverse]
  | c :: cs =>
    if p c then runsOfAux p (c :: cur) cs
    else if cur = [] then runsOfAux p [] cs else cur.reverse :: runsOfAux p [] cs

def runsOf (p : Char → Bool) (t : List Char) : List (List Char) := runsOfAux p [] t

/-- `backend/search/keyword.py` `_tokenize`: lowercase, then
`re.findall(r"\b[a-z0-9]+\b", text)`.  On lowercased ASCII text a match of
that regex is exactly a maximal run of word characters (`[a-z0-9_]`) that
contains no underscore (an adjacent underscore removes both `\b` anchors, and
an underscore inside the run blocks any sub-run match). -/
def tokenize (text : List Char) : List (List Char) :=
  (runsOf isWordCh (lowerStr text)).filter (fun r => ¬ '_' ∈ r)

/-- `backend/query/intent.py`: `re.findall(r"\b[a-z]+\b", lower)` — maximal
word-character runs consisting solely of lowercase letters. -/
def alphaWords (lower : List Char) : List (List Char) :=
  (runsOf isWordCh lower).filter (fun r => r.all isLowerCh)

/-- Substring test: `sub in l` for Python strings. -/
def containsSub (l sub : List Char) : Bool :=
  (List.range (l.length + 1)).any (fun i => decide ((l.drop i).take sub.length = sub))

/-! ## Stable descending sort by score

`list.sort(key=lambda x: x[1], reverse=True)` is a stable sort placing higher
scores first; equal scores keep their original relative order.  It is
modelled by insertion sort with the total reflexive relation
"left score ≥ right score", which has exactly that behaviour. -/

/-- A scored candidate `(fragment_position, score)`. -/
abbrev Scored := ℕ × ℚ

/-- The descending-by-score comparison used by every `sort(..., reverse=True)`
call in the repository. -/
def scoreGe (a b : Scored) : Prop := b.2 ≤ a.2

instance : DecidableRel scoreGe := fun a b => inferInstanceAs (Decidable (b.2 ≤ a.2))

instance : IsTotal Scored scoreGe := ⟨fun a b => le_total b.2 a.2⟩

instance : IsTrans Scored scoreGe := ⟨fun _ _ _ h1 h2 => le_trans h2 h1⟩

/-- Python's stable descending sort by the score component. -/
def sortDesc (l : List Scored) : List Scored := l.insertionSort scoreGe

theorem sortDesc_perm (l : List Scored) : List.Perm (sortDesc l) l :=
  List.perm_insertionSort _ l

theorem sortDesc_sorted (l : List Scored) : (sortDesc l).Sorted scoreGe :=
  List.sorted_insertionSort _ l

/-- Pairs in descending order with ties broken by the tie-order `S`. -/
def descStable (S : Scored → Scored → Prop) (a b : Scored) : Prop :=
  b.2 < a.2 ∨ (a.2 = b.2 ∧ S a b)

theorem pairwise_orderedInsert_stable {S : Scored → Scored → Prop} {x : Scored}
    {l : List Scored} (hl : l.Pairwise (descStable S))
    (hx : ∀ y ∈ l, x.2 = y.2 → S x y) :
    (l.orderedInsert scoreGe x).Pairwise (descStable S) := by
  induction l with
  | nil => simp [List.orderedInsert, descStable]
  | cons y ys ih =>
    rw [List.orderedInsert]
    by_cases h : scoreGe x y
    · rw [if_pos h]
      refine List.Pairwise.cons ?_ hl
      intro z hz
      rw [List.mem_cons] at hz
      rcases hz with hz | hz
      · subst hz
        rcases lt_or_eq_of_le h with h' | h'
        · exact Or.inl h'
        · exact Or.inr ⟨h'.symm, hx z (List.mem_cons_self z ys) h'.symm⟩
      · have hyz := (List.pairwise_cons.mp hl).1 z hz
        have hy2 : z.2 ≤ y.2 := by
          rcases hyz with h' | h'
          · exact le_of_lt h'
          · exact le_of_eq h'.1.symm
        have hzx : z.2 ≤ x.2 := le_trans hy2 h
        rcases lt_or_eq_of_le hzx with h' | h'
        · exact Or.inl h'
        · exact Or.inr ⟨h'.symm, hx z (List.mem_cons_of_mem y hz) h'.symm⟩
    · rw [if_neg h]
      refine List.Pairwise.cons ?_ (ih (List.pairwise_cons.mp hl).2
        (fun z hz hze => hx z (List.mem_cons_of_mem y hz) hze))
      intro z hz
      have hz' : z = x ∨ z ∈ ys := by
        have := (List.perm_orderedInsert scoreGe x ys).mem_iff.mp hz
        simpa using this
      rcases hz' with hz' | hz'
      · subst hz'
        exact Or.inl (lt_of_not_le h)
      · exact (List.pairwise_cons.mp hl).1 z hz'

/-- Stability of the sort: if the input's ties are ordered by `S`, so are the
output's. -/
theorem sortDesc_pairwise_stable {S : Scored → Scored → Prop} {l : List Scored}
    (hl : l.Pairwise (fun a b => a.2 = b.2 → S a b)) :
    (sortDesc l).Pairwise (descStable S) := by
  induction l with
  | nil => simp [sortDesc, List.insertionSort]
  | cons x xs ih =>
    rw [sortDesc, List.insertionSort]
    refine pairwise_orderedInsert_stable ?_ ?_
    · exact ih (List.pairwise_cons.mp hl).2
    · intro y hy hye
      have hmem : y ∈ xs := (List.perm_insertionSort scoreGe xs).mem_iff.mp hy
      exact (List.pairwise_cons.mp hl).1 y hmem hye

/-! ## Data model

A stored chunk record, as produced by `ChunkStore.load_chunks` (a JSON dict
with keys `text`, `source_file`, `page`, `chunk_index`, and — when an
embedding was persisted — `embedding`; `dict.get("embedding")` returning
`None` is modelled by `embedding = none`). -/

structure Record where
  text : List Char
  source_file : String
  page : ℕ
  chunk_index : ℕ
  embedding : Option (List ℚ)
  deriving Repr, DecidableEq

/-- `backend/ingestion/chunker.py` `Chunk` dataclass. -/
structure Chunk where
  text : List Char
  source_file : String
  page : ℕ
  chunk_index : ℕ
  deriving Repr, DecidableEq

/-! ## `backend/search/keyword.py` — BM25 index -/

/-- The small constant `1e-10` added to denominators. -/
def eps : ℚ := 1 / 10 ^ 10

/-- `BM25Index` state after `build` (`doc_freq` is the dict
`term ↦ number of documents containing term`, represented by its lookup
function with default 0, exactly `self.doc_freq.get(term, 0)`). -/
structure BM25Index where
  k1 : ℚ
  b : ℚ
  doc_tokens : List (List (List Char))
  doc_len : List ℕ
  avgdl : ℚ
  doc_freq : List Char → ℕ
  N : ℕ

/-- `BM25Index.__init__` defaults (`k1=1.5`, `b=0.75`, both exact binary
floats) followed by `BM25Index.build(chunks)`. -/
def BM25Index.build (chunks : List Record) : BM25Index :=
  let dts := chunks.map (fun c => tokenize c.text)
  { k1 := 3 / 2
    b := 3 / 4
    doc_tokens := dts
    doc_len := dts.map List.length
    avgdl := if chunks.length = 0 then 0 else
      ((dts.map List.length).sum : ℚ) / (chunks.length : ℚ)
    doc_freq := fun term => (dts.filter (fun d => term ∈ d)).length
    N := chunks.length }

/-- `BM25Index._idf`; `math.log` is the abstract parameter `lg`. -/
def BM25Index.idf (lg : ℚ → ℚ) (idx : BM25Index) (term : List Char) : ℚ :=
  let df := idx.doc_freq term
  if df = 0 then 0
  else lg (((idx.N : ℚ) - (df : ℚ) + 1/2) / ((df : ℚ) + 1/2) + 1)

/-- The body of the `for term in set(query_tokens)` accumulation for one term:
`0` when the term is absent from the document (the `continue`), otherwise
`idf * tf*(k1+1) / (tf + k1*(1 - b + b*dl/(avgdl+1e-10)))`. -/
def BM25Index.termScore (lg : ℚ → ℚ) (idx : BM25Index) (tokens : List (List Char))
    (dl : ℕ) (term : List Char) : ℚ :=
  let f := tokens.count term
  if f = 0 then 0
  else
    let norm := 1 - idx.b + idx.b * (dl : ℚ) / (idx.avgdl + eps)
    idx.idf lg term * ((f : ℚ) * (idx.k1 + 1)) / ((f : ℚ) + idx.k1 * norm)

/-- `BM25Index.score(query_tokens, doc_idx)`.  Python iterates over
`set(query_tokens)` in unspecified order; since rational addition is
commutative the sum is represented by folding over `query_tokens.dedup`
(first-occurrence order), and `Counter(tokens)[term]` is `tokens.count term`. -/
def BM25Index.score (lg : ℚ → ℚ) (idx : BM25Index) (query_tokens : List (List Char))
    (doc_idx : ℕ) : ℚ :=
  if idx.doc_tokens.length ≤ doc_idx then 0
  else
    let tokens := idx.doc_tokens.getD doc_idx []
    let dl := idx.doc_len.getD doc_idx 0
    (query_tokens.dedup.map (idx.termScore lg tokens dl)).sum

/-- `BM25Index.search(query, top_k)`. -/
def BM25Index.search (lg : ℚ → ℚ) (idx : BM25Index) (query : List Char)
    (top_k : ℕ) : List Scored :=
  if idx.doc_tokens = [] then []
  else
    let q_tokens := tokenize query
    if q_tokens = [] then []
    else
      let scores := (List.range idx.N).map (fun i => (i, idx.score lg q_tokens i))
      let pos := scores.filter (fun p => decide (0 < p.2))
      (sortDesc pos).take top_k

/-- `keyword_search(query, chunks, index, top_k)`: builds the index when not
provided, returns results and the index used. -/
def keyword_search (lg : ℚ → ℚ) (query : List Char) (chunks : List Record)
    (index : Option BM25Index) (top_k : ℕ) : List Scored × BM25Index :=
  let idx := index.getD (BM25Index.build chunks)
  (idx.search lg query top_k, idx)

/-! ## `backend/search/semantic.py` — cosine similarity search

`np.linalg.norm` is the abstract parameter `nrm`; a vector `v` is normalized
to `v / (nrm v + 1e-10)` and scored by dot product. -/

/-- Elementwise `v / (nrm v + 1e-10)`. -/
def normalizeVec (nrm : List ℚ → ℚ) (v : List ℚ) : List ℚ :=
  v.map (fun x => x / (nrm v + eps))

/-- `np.dot` on equal-length vectors. -/
def dotQ (a b : List ℚ) : ℚ := (List.zipWith (· * ·) a b).sum

/-- `semantic_search(query_embedding, chunks, top_k)`: skip chunks with no
stored embedding, score the rest by cosine similarity, stable-sort
descending, truncate. -/
def semantic_search (nrm : List ℚ → ℚ) (query_embedding : List ℚ)
    (chunks : List Record) (top_k : ℕ) : List Scored :=
  if chunks = [] then []
  else
    let qn := normalizeVec nrm query_embedding
    let scores := chunks.enum.filterMap (fun ic =>
      ic.2.embedding.map (fun e => (ic.1, dotQ qn (normalizeVec nrm e))))
    (sortDesc scores).take top_k

/-! ## `backend/search/hybrid.py` — reciprocal rank fusion -/

/-- `RRF_K = 60`. -/
def RRF_K : ℕ := 60

/-- `scores[idx] = scores.get(idx, 0.0) + v` on an insertion-ordered dict. -/
def upsert : List Scored → ℕ → ℚ → List Scored
  | [], i, v => [(i, v)]
  | (j, w) :: rest, i, v =>
    if j = i then (j, w + v) :: rest else (j, w) :: upsert rest i v

/-- One `for rank, (idx, _) in enumerate(results, start=rank0)` accumulation
loop over a ranked list. -/
def addRanks (k : ℕ) (m : List Scored) : List Scored → ℕ → List Scored
  | [], _ => m
  | p :: rest, rank => addRanks k (upsert m p.1 (1 / ((k : ℚ) + (rank : ℚ)))) rest (rank + 1)

/-- The `scores` dict of `rrf_merge` after both accumulation loops. -/
def rrfScores (semantic_results keyword_results : List Scored) (k : ℕ) : List Scored :=
  addRanks k (addRanks k [] semantic_results 1) keyword_results 1

/-- `rrf_merge(semantic_results, keyword_results, k, top_k)`. -/
def rrf_merge (semantic_results keyword_results : List Scored) (k top_k : ℕ) :
    List Scored :=
  (sortDesc (rrfScores semantic_results keyword_results k)).take top_k

/-- `hybrid_search`: semantic + keyword search fused by RRF (with the fixed
`k = RRF_K`); returns the merged ranking and the BM25 index for reuse. -/
def hybrid_search (lg : ℚ → ℚ) (nrm : List ℚ → ℚ) (query_embedding : List ℚ)
    (query_text : List Char) (chunks : List Record) (keyword_index : Option BM25Index)
    (top_k : ℕ) : List Scored × BM25Index :=
  let semantic_results := semantic_search nrm query_embedding chunks top_k
  let kw := keyword_search lg query_text chunks keyword_index top_k
  (rrf_merge semantic_results kw.1 RRF_K top_k, kw.2)

/-! ## `backend/retrieval/rerank.py` -/

/-- `rerank_by_semantic(rrf_results, query_embedding, chunks, top_k)`:
re-score the fused candidates by cosine similarity to the query, silently
skipping candidates whose chunk index is out of range or whose chunk carries
no embedding, stable-sort descending, truncate. -/
def rerank_by_semantic (nrm : List ℚ → ℚ) (rrf_results : List Scored)
    (query_embedding : List ℚ) (chunks : List Record) (top_k : ℕ) : List Scored :=
  if rrf_results = [] ∨ chunks = [] then []
  else
    let qn := normalizeVec nrm query_embedding
    let scores := rrf_results.filterMap (fun p =>
      match chunks.get? p.1 with
      | none => none
      | some c => c.embedding.map (fun e => (p.1, dotQ qn (normalizeVec nrm e))))
    (sortDesc scores).take top_k

/-! ## `backend/ingestion/chunker.py` -/

/-- One extracted page, an element of the `pages` list fed to `chunk_text`. -/
structure PageData where
  text : List Char
  source_file : String
  page : ℕ
  deriving Repr, DecidableEq

/-- Sentence terminator class `[.!?]`. -/
def isPunctCh (c : Char) : Bool := c = '.' || c = '!' || c = '?'

/-- Whether an optional previous character satisfies the lookbehind
`(?<=[.!?])`. -/
def prevPunct : Option Char → Bool
  | none => false
  | some c => isPunctCh c

/-- Scanner state for the sentence-split regex: outside a separator, inside
an alternative-1 separator (`(?<=[.!?])\s+`, consuming whitespace), or inside
an alternative-2 separator (`\n+`, consuming newlines). -/
inductive SepMode where
  | noSep
  | sepAll
  | sepNL
  deriving DecidableEq, Repr

/-- `re.split(r"(?<=[.!?])\s+|\n+", text)` as a left-to-right character scan.
A separator starts where either (alt 1) the current character is whitespace
and the previous character is `.`/`!`/`?` — consuming the maximal whitespace
run — or (alt 2) the current character is a newline — consuming the maximal
newline run.  Text between separators is kept verbatim.  `prev` tracks the
preceding character for the lookbehind, `acc` the current piece (reversed);
on leaving a separator the next character can never itself start a separator
(its predecessor is whitespace, not a terminator, and it is not a newline),
so it simply opens the next piece. -/
def sentSplitAux (prev : Option Char) (mode : SepMode) (acc : List Char) :
    List Char → List (List Char)
  | [] => [acc.reverse]
  | c :: cs =>
    match mode with
    | .sepAll =>
      if isSpaceCh c then sentSplitAux (some c) .sepAll acc cs
      else sentSplitAux (some c) .noSep [c] cs
    | .sepNL =>
      if c = '\n' then sentSplitAux (some c) .sepNL acc cs
      else sentSplitAux (some c) .noSep [c] cs
    | .noSep =>
      if isSpaceCh c ∧ prevPunct prev then
        acc.reverse :: sentSplitAux (some c) .sepAll [] cs
      else if c = '\n' then
        acc.reverse :: sentSplitAux (some c) .sepNL [] cs
      else sentSplitAux (some c) .noSep (c :: acc) cs

/-- The full sentence-split of a page text. -/
def sentSplit (prev : Option Char) (acc : List Char) (t : List Char) :
    List (List Char) :=
  sentSplitAux prev .noSep acc t

/-- The word-boundary fallback inside `_split_sentences`: pack the whitespace-
split words of an over-long segment greedily into parts of at most
`max_part_len` characters (note the source's exact length bookkeeping,
including the `+ (1 if current_len else 0)`). -/
def packWords (max_part_len : ℕ) (words : List (List Char)) : List (List Char) :=
  let st := words.foldl (fun (st : List (List Char) × List (List Char) × ℕ) w =>
    let result := st.1
    let current := st.2.1
    let current_len := st.2.2
    if max_part_len < current_len + w.length + 1 ∧ current ≠ [] then
      (result ++ [joinSpace current], [w], w.length)
    else
      (result, current ++ [w],
        current_len + w.length + (if current_len = 0 then 0 else 1)))
    ([], [], 0)
  if st.2.1 = [] then st.1 else st.1 ++ [joinSpace st.2.1]

/-- `_split_sentences(text, max_part_len=400)`. -/
def split_sentences (text : List Char) (max_part_len : ℕ := 400) : List (List Char) :=
  (sentSplit none [] text).foldl (fun result p =>
    let p := pstrip p
    if p = [] then result
    else if p.length ≤ max_part_len then result ++ [p]
    else result ++ packWords max_part_len (pysplit p)) []

/-- The overlap-seeding loop of `_chunk_page_text`: walk the closed chunk's
units backwards, keeping a suffix whose accumulated `len(s)+1` stays within
the overlap budget, stopping at the first unit that would exceed it.  Takes
the reversed unit list and the running total; returns the kept suffix in
original order together with the final total. -/
def overlapSeedGo (overlap : ℕ) (acc : ℕ) : List (List Char) → List (List Char) × ℕ
  | [] => ([], acc)
  | s :: rs =>
    if acc + s.length + 1 ≤ overlap then
      let r := overlapSeedGo overlap (acc + s.length + 1) rs
      (r.1 ++ [s], r.2)
    else ([], acc)

/-- `overlap_text` / `overlap_len` seeding from a closed chunk's units. -/
def overlapSeed (overlap : ℕ) (current : List (List Char)) : List (List Char) × ℕ :=
  overlapSeedGo overlap 0 current.reverse

/-- Loop state of `_chunk_page_text`: emitted chunks, current unit list,
current length, next local chunk index. -/
structure PageChunkSt where
  chunks : List Chunk
  current : List (List Char)
  current_len : ℕ
  chunk_idx : ℕ

/-- `_chunk_page_text(text, source_file, page, chunk_size, overlap)`. -/
def chunk_page_text (text : List Char) (source_file : String) (page : ℕ)
    (chunk_size overlap : ℕ) : List Chunk :=
  if pstrip text = [] then []
  else
    let sentences := split_sentences text
    let st := sentences.foldl (fun (st : PageChunkSt) sent =>
      let sent_len := sent.length + 1
      let st :=
        if chunk_size < st.current_len + sent_len ∧ st.current ≠ [] then
          let seeded := overlapSeed overlap st.current
          { chunks := st.chunks ++
              [⟨pstrip (joinSpace st.current), source_file, page, st.chunk_idx⟩]
            current := seeded.1
            current_len := seeded.2
            chunk_idx := st.chunk_idx + 1 }
        else st
      { st with current := st.current ++ [sent], current_len := st.current_len + sent_len })
      ⟨[], [], 0, 0⟩
    if st.current = [] then st.chunks
    else st.chunks ++ [⟨pstrip (joinSpace st.current), source_file, page, st.chunk_idx⟩]

/-- `chunk_text(pages, chunk_size=400, overlap=50)`: per-page chunking, then a
single global pass reassigning `chunk_index` in emission order. -/
def chunk_text (pages : List PageData) (chunk_size : ℕ := 400) (overlap : ℕ := 50) :
    List Chunk :=
  let chunks := pages.foldl (fun acc pd =>
    acc ++ chunk_page_text pd.text pd.source_file pd.page chunk_size overlap) []
  chunks.enum.map (fun ic => { ic.2 with chunk_index := ic.1 })

/-! ## `backend/query/intent.py` -/

inductive Intent where
  | greeting
  | general_chat
  | knowledge_query
  deriving DecidableEq, Repr

/-- The `GREETINGS` vocabulary (a frozenset; only membership is used). -/
def GREETINGS : List (List Char) :=
  ["hi".toList, "hello".toList, "hey".toList, "hiya".toList, "howdy".toList,
   "yo".toList, "sup".toList, "greetings".toList, "good morning".toList,
   "good afternoon".toList, "good evening".toList, "hi there".toList]

/-- The `QUESTION_WORDS` vocabulary. -/
def QUESTION_WORDS : List (List Char) :=
  ["what".toList, "where".toList, "when".toList, "who".toList, "why".toList,
   "how".toList, "which".toList, "whose".toList]

/-- `detect_intent(query)`: rule-based intent classification.  The word set
`set(re.findall(r"\b[a-z]+\b", lower))` is represented by the match list
`alphaWords lower` (only membership/intersection tests are performed on it). -/
def detect_intent (query : List Char) : Intent :=
  let text := pstrip query
  if text = [] then .general_chat
  else
    let lower := lowerStr text
    let words := alphaWords lower
    if text.length < 15 ∧ (words.any (fun w => w ∈ GREETINGS) ∨ lower ∈ GREETINGS) then
      .greeting
    else if text.length < 25 ∧ ¬ words.any (fun w => w ∈ QUESTION_WORDS) then
      if containsSub lower "tell me".toList ∨ containsSub lower "explain".toList ∨
          containsSub lower "describe".toList then
        .knowledge_query
      else .general_chat
    else .knowledge_query

/-! ## `backend/query/refusal.py`

The three `PII_PATTERNS` regexes are decided by explicit position scans; a
regex matches the text iff some decomposition into the pattern's runs exists,
with `\b` the usual word/non-word boundary. -/

inductive RefusalReason where
  | NONE
  | PII
  | LEGAL_MEDICAL
  deriving DecidableEq, Repr

structure RefusalResult where
  should_refuse : Bool
  reason : RefusalReason
  message : Option String
  deriving DecidableEq, Repr

/-- Is the character at index `i` a word character (out of range counts as
non-word)? -/
def wordAt (t : List Char) (i : ℕ) : Bool :=
  match t.get? i with
  | some c => isWordCh c
  | none => false

/-- `\b` holds at position `i` iff exactly one of the two adjacent characters
is a word character. -/
def boundaryAt (t : List Char) (i : ℕ) : Bool :=
  ((decide (i ≠ 0)) && wordAt t (i - 1)) != wordAt t i

/-- Shape `\d{3}-\d{2}-\d{4}`. -/
def isSSNshape : List Char → Bool
  | [a, b, c, h1, d, e, h2, f, g, h, i] =>
    isDigitCh a && isDigitCh b && isDigitCh c && h1 = '-' && isDigitCh d &&
    isDigitCh e && h2 = '-' && isDigitCh f && isDigitCh g && isDigitCh h && isDigitCh i
  | _ => false

/-- `re.search(r"\b\d{3}-\d{2}-\d{4}\b", t)` is truthy. -/
def ssnMatch (t : List Char) : Bool :=
  (List.range (t.length + 1)).any fun i =>
    isSSNshape ((t.drop i).take 11) &&
    (decide (i = 0) || !wordAt t (i - 1)) && !wordAt t (i + 11)

/-- `re.search(r"\b\d{16}\b", t)` is truthy: a run of 16 digits whose two
neighbours are not word characters. -/
def cc16Match (t : List Char) : Bool :=
  (List.range (t.length + 1)).any fun i =>
    let w := (t.drop i).take 16
    decide (w.length = 16) && w.all isDigitCh &&
    (decide (i = 0) || !wordAt t (i - 1)) && !wordAt t (i + 16)

/-- The class `[A-Za-z0-9._%+-]`. -/
def localCh (c : Char) : Bool :=
  isAlnumCh c || c = '.' || c = '_' || c = '%' || c = '+' || c = '-'

/-- The class `[A-Za-z0-9.-]`. -/
def domainCh (c : Char) : Bool := isAlnumCh c || c = '.' || c = '-'

/-- The class `[A-Z|a-z]` (the `|` is a literal member of the class). -/
def tldCh (c : Char) : Bool := isAlphaCh c || c = '|'

/-- `re.search(r"\b[A-Za-z0-9._%+-]+@[A-Za-z0-9.-]+\.[A-Z|a-z]{2,}\b", t)` is
truthy: some decomposition local-part `@` domain `.` tld with the two `\b`
anchors exists. -/
def emailMatch (t : List Char) : Bool :=
  (List.range t.length).any fun j =>
    decide (t.get? j = some '@') &&
    ((List.range j).any fun i =>
      boundaryAt t i && decide (i < j) && ((t.drop i).take (j - i)).all localCh) &&
    ((List.range t.length).any fun m =>
      decide (j + 1 < m) && decide (t.get? m = some '.') &&
      ((t.drop (j + 1)).take (m - (j + 1))).all domainCh &&
      ((List.range (t.length + 1)).any fun e =>
        decide (m + 3 ≤ e) && ((t.drop (m + 1)).take (e - (m + 1))).all tldCh &&
        boundaryAt t e))

/-- `LEGAL_MEDICAL_KEYWORDS` (a frozenset; iteration order does not matter
because every hit yields the same result). -/
def LEGAL_MEDICAL_KEYWORDS : List (List Char) :=
  ["legal advice".toList, "lawsuit".toList, "sue".toList, "attorney".toList,
   "lawyer".toList, "medical advice".toList, "diagnose".toList,
   "prescription".toList, "doctor said".toList]

def ssnMsg : String :=
  "I cannot process queries that appear to contain SSN. Please rephrase without sharing personal information."

def ccMsg : String :=
  "I cannot process queries that appear to contain credit card. Please rephrase without sharing personal information."

def emailMsg : String :=
  "I cannot process queries that appear to contain email. Please rephrase without sharing personal information."

def legalMsg : String :=
  "This system provides information from your documents only and does not constitute legal or medical advice. Consult a qualified professional for such matters."

/-- `check_refusal(query)`: the PII patterns in list order, then the
legal/medical keyword scan. -/
def check_refusal (query : List Char) : RefusalResult :=
  let text := pstrip query
  let lower := lowerStr text
  if ssnMatch text then ⟨true, .PII, some ssnMsg⟩
  else if cc16Match text then ⟨true, .PII, some ccMsg⟩
  else if emailMatch text then ⟨true, .PII, some emailMsg⟩
  else if LEGAL_MEDICAL_KEYWORDS.any (fun kw => containsSub lower kw) then
    ⟨true, .LEGAL_MEDICAL, some legalMsg⟩
  else ⟨false, .NONE, none⟩

/-! ## `backend/query/transform.py`

The six `def_patterns` all have the shape
`kw₁\s+kw₂...\s+(.+)<tail>$` under `re.IGNORECASE`.  `$` matches at the end
of the text or just before a final newline (position `dEnd`), `.` never
matches a newline, and every match therefore spans from its start position to
`dEnd`; `re.sub` hence rewrites `text[:i] + template(capture) + text[dEnd:]`
for the leftmost match start `i`, and no further match remains. -/

/-- The position that `$` matches (end of text, or before one final
newline). -/
def dEnd (t : List Char) : ℕ :=
  if t.getLast? = some '\n' then t.length - 1 else t.length

/-- Case-insensitive literal prefix match (the literal is lowercase);
returns the rest. -/
def matchCIPre : List Char → List Char → Option (List Char)
  | [], rest => some rest
  | _ :: _, [] => none
  | k :: ks, c :: cs => if lowerCh c = lowerCh k then matchCIPre ks cs else none

/-- Match `kw₁\s+kw₂\s+...\s+kwₙ` case-insensitively at the head of `t`
(interior `\s+` runs are maximal — the next keyword starts on a non-space —
so the match is deterministic); returns the rest after the final keyword. -/
def kwSeqMatch : List (List Char) → List Char → Option (List Char)
  | [], t => some t
  | [k], t => matchCIPre k t
  | k :: ks, t =>
    match matchCIPre k t with
    | none => none
    | some r =>
      if r.takeWhile isSpaceCh = [] then none
      else kwSeqMatch ks (r.dropWhile isSpaceCh)

/-- `(.+)\?*$` (and `(.+)$`) from absolute position `q`: the greedy `.+`
captures everything up to `dEnd` (including any trailing `?`, which `\?*`
matches only when `.+` cannot be extended — it never needs to here); the
match fails if that span is empty or contains a newline. -/
def tailCapture (t : List Char) (q : ℕ) : Option (List Char) :=
  let cap := (t.drop q).take (dEnd t - q)
  if cap ≠ [] ∧ ¬ '\n' ∈ cap then some cap else none

/-- Backtracking over the final `\s+` before the capture group: greedy, so
the run length `r` is tried from maximal down to 1. -/
def wsBacktrack {α : Type} (tail : ℕ → Option α) (pos : ℕ) : ℕ → Option α
  | 0 => none
  | r + 1 =>
    match tail (pos + r + 1) with
    | some x => some x
    | none => wsBacktrack tail pos r

/-- Match `kws...\s+(.+)<simple tail>$` starting exactly at offset `i`;
returns the capture. -/
def simpleMatchAt (kws : List (List Char)) (t : List Char) (i : ℕ) :
    Option (List Char) :=
  match kwSeqMatch kws (t.drop i) with
  | none => none
  | some rest =>
    let run := rest.takeWhile isSpaceCh
    if run = [] then none
    else wsBacktrack (fun q => tailCapture t q) (t.length - rest.length) run.length

/-- The tail of pattern 5, `(.+)\s+work\?*$`, from absolute position `q`:
`\?*$` forces the trailing `?`-run to be consumed entirely; greedy `.+` then
takes the longest newline-free prefix that leaves only whitespace before the
final `work`. -/
def tail5From (t : List Char) (q : ℕ) : Option (List Char) :=
  let region := (t.drop q).take (dEnd t - q)
  let v := (region.reverse.dropWhile (fun c => c = '?')).reverse
  if lowerStr (v.drop (v.length - 4)) = "work".toList ∧ 5 ≤ v.length then
    go v (v.length - 5)
  else none
where
  /-- try capture lengths `c`, longest first -/
  go (v : List Char) : ℕ → Option (List Char)
    | 0 => none
    | c + 1 =>
      let cap := v.take (c + 1)
      if ¬ '\n' ∈ cap ∧ ((v.drop (c + 1)).take (v.length - 4 - (c + 1))).all isSpaceCh ∧
          ((v.drop (c + 1)).take (v.length - 4 - (c + 1))) ≠ [] then
        some cap
      else go v c

/-- Match pattern 5 (`how\s+does\s+(.+)\s+work\?*$`) at offset `i`. -/
def howWorkMatchAt (t : List Char) (i : ℕ) : Option (List Char) :=
  match kwSeqMatch ["how".toList, "does".toList] (t.drop i) with
  | none => none
  | some rest =>
    let run := rest.takeWhile isSpaceCh
    if run = [] then none
    else wsBacktrack (fun q => tail5From t q) (t.length - rest.length) run.length

/-- One `def_patterns` entry: a matcher and the replacement template. -/
def defPatterns : List ((t : List Char) → (i : ℕ) → Option (List Char)) ×
    List (List Char → List Char) :=
  ([fun t i => simpleMatchAt ["what".toList, "is".toList] t i,
    fun t i => simpleMatchAt ["what".toList, "are".toList] t i,
    fun t i => simpleMatchAt ["define".toList] t i,
    fun t i => simpleMatchAt ["explain".toList] t i,
    fun t i => howWorkMatchAt t i,
    fun t i => simpleMatchAt ["why".toList] t i],
   [fun cap => "definition explanation of ".toList ++ cap,
    fun cap => "definition explanation of ".toList ++ cap,
    fun cap => "definition of ".toList ++ cap,
    fun cap => "explanation of ".toList ++ cap,
    fun cap => "how ".toList ++ cap ++ " works mechanism process".toList,
    fun cap => "reasons causes for ".toList ++ cap])

/-- Leftmost match of one pattern (`re.search` scans start positions left to
right), and the corresponding `re.sub` rewrite. -/
def applyPattern (matcher : List Char → ℕ → Option (List Char))
    (template : List Char → List Char) (t : List Char) : Option (List Char) :=
  ((List.range (t.length + 1)).findSome? (fun i =>
    (matcher t i).map (fun cap => (i, cap)))).map
    (fun icap => t.take icap.1 ++ template icap.2 ++ t.drop (dEnd t))

/-- The `for pattern, repl in def_patterns` loop: first matching pattern
wins, later patterns are not tried. -/
def applyDefPatterns (t : List Char) : List Char :=
  go defPatterns.1 defPatterns.2 t
where
  go : List (List Char → ℕ → Option (List Char)) → List (List Char → List Char) →
      List Char → List Char
    | [], _, t => t
    | _, [], t => t
    | m :: ms, tpl :: tpls, t =>
      match applyPattern m tpl t with
      | some t' => t'
      | none => go ms tpls t

/-- `ACRONYM_EXPANSIONS`. -/
def ACRONYM_EXPANSIONS : List (List Char × List Char) :=
  [("ai".toList, "artificial intelligence".toList),
   ("ml".toList, "machine learning".toList),
   ("nlp".toList, "natural language processing".toList),
   ("api".toList, "application programming interface".toList),
   ("rag".toList, "retrieval augmented generation".toList),
   ("llm".toList, "large language model".toList)]

/-- The per-word acronym expansion: strip non-alphanumerics
(`re.sub(r"[^a-zA-Z0-9]", "", w)`), lowercase, and when the result is a known
acronym emit `expansion + " " + w`. -/
def expandWord (w : List Char) : List Char :=
  let clean := lowerStr (w.filter isAlnumCh)
  match ACRONYM_EXPANSIONS.lookup clean with
  | some exp => exp ++ ' ' :: w
  | none => w

/-- `transform_query(query)`. -/
def transform_query (query : List Char) : List Char :=
  let text := pstrip query
  if text = [] then text
  else
    let expanded := (pysplit text).map expandWord
    let text := joinSpace expanded
    pstrip (applyDefPatterns text)

/-! ## `backend/storage/store.py` — `ChunkStore`

The JSON file is modelled by `Option (List Record)` (`none` = file absent).
`save_chunks(chunks)` serializes exactly the four keys `text`, `source_file`,
`page`, `chunk_index` — it takes no vectors and writes no `embedding` key, so
`dict.get("embedding")` on any loaded record is `None` (`embedding := none`
in the `Record` model). -/

/-- The record dict written for one chunk by `ChunkStore.save_chunks`. -/
def chunkToRecord (c : Chunk) : Record :=
  ⟨c.text, c.source_file, c.page, c.chunk_index, none⟩

/-- `ChunkStore.save_chunks(chunks)`: the file content it writes. -/
def save_chunks (chunks : List Chunk) : List Record :=
  chunks.map chunkToRecord

/-- `ChunkStore.load_chunks()`: `[]` when the file does not exist, otherwise
the parsed record list. -/
def load_chunks (file : Option (List Record)) : List Record :=
  file.getD []

/-! ## `backend/main.py` — the `/query` endpoint

The handler below is `query(req)` as a pure function of the process state
(`_chunks_cache`, `_bm25_index`) and the collaborators:
* `embedQ` — `embed_texts([transformed])[0]`, the external embedding service;
* `gen` — `generate_answer(question, context_chunks)`, the generation service;
* `threshold` — modelled from the spec: `SIMILARITY_THRESHOLD` is imported
  from `backend/config.py`, but its definition is absent from the sources
  (`config.py` does not define it); the spec says only that it is a fixed
  minimum for the top reranked cosine score, so it is a parameter here.
`HTTPException` is `Except.error`.  The three Booleans record whether the
embedding service, the retrieval stage (hybrid search + rerank) and the
generation service were invoked on the taken path. -/

structure QueryResp where
  answer : String
  sources : List (String × ℕ)
  embed_called : Bool
  retrieval_called : Bool
  generation_called : Bool
  deriving DecidableEq, Repr

def greetingAnswer : String :=
  "Hello! I can answer questions about the documents you've uploaded. What would you like to know?"

def generalChatAnswer : String :=
  "I'm here to help with questions about your uploaded documents. Try asking something like 'What does this document say about X?' or 'Summarize the main points.'"

def noDocsAnswer : String :=
  "No documents have been ingested yet. Please upload PDF files first."

def noPassagesAnswer : String :=
  "Insufficient evidence. No relevant passages were found in the knowledge base."

def belowThresholdAnswer : String :=
  "Insufficient evidence. The retrieved passages do not meet the relevance threshold."

/-- `query(req)` of `backend/main.py`.  `context_chunks` is
`[_chunks_cache[idx] for idx, _ in reranked]`; the reranker only emits
in-range indices, so the lookup is total (`filterMap get?`). -/
def queryHandler (lg : ℚ → ℚ) (nrm : List ℚ → ℚ) (embedQ : List Char → List ℚ)
    (gen : List Char → List Record → String) (threshold : ℚ)
    (chunks_cache : List Record) (bm25_index : Option BM25Index)
    (question : List Char) : Except String QueryResp :=
  let q := pstrip question
  if q = [] then .error "Question cannot be empty"
  else
    match detect_intent q with
    | .greeting => .ok ⟨greetingAnswer, [], false, false, false⟩
    | .general_chat => .ok ⟨generalChatAnswer, [], false, false, false⟩
    | .knowledge_query =>
      let refusal := check_refusal q
      if refusal.should_refuse then
        .ok ⟨refusal.message.getD "", [], false, false, false⟩
      else if chunks_cache = [] then
        .ok ⟨noDocsAnswer, [], false, false, false⟩
      else
        let transformed := transform_query q
        let query_embedding := embedQ transformed
        let rrf_results :=
          (hybrid_search lg nrm query_embedding transformed chunks_cache bm25_index 20).1
        let reranked := rerank_by_semantic nrm rrf_results query_embedding chunks_cache 5
        if reranked = [] then
          .ok ⟨noPassagesAnswer, [], true, true, false⟩
        else if reranked.headI.2 < threshold then
          .ok ⟨belowThresholdAnswer, [], true, true, false⟩
        else
          let context_chunks := reranked.filterMap (fun p => chunks_cache.get? p.1)
          .ok ⟨gen question context_chunks,
            context_chunks.map (fun c => (c.source_file, c.page)), true, true, true⟩

/-! ## Helper lemmas -/

theorem dropWhile_fix_rdropWhile (p : Char → Bool) (l : List Char)
    (h : l.dropWhile p = l) : (l.rdropWhile p).dropWhile p = l.rdropWhile p := by
  cases l with
  | nil => simp [List.rdropWhile]
  | cons x xs =>
    have hx : p x = false := by
      by_cases hc : p x = true
      · rw [List.dropWhile_cons, if_pos hc] at h
        have hlen := congrArg List.length h
        have hle := List.Sublist.length_le
          (show List.Sublist (xs.dropWhile p) xs from List.dropWhile_sublist p)
        simp at hlen
        omega
      · simpa using hc
    obtain ⟨s, hs⟩ := List.rdropWhile_prefix p (x :: xs)
    cases hr : (x :: xs).rdropWhile p with
    | nil => simp
    | cons y ys =>
      rw [hr] at hs
      have hy : y = x := by
        have := congrArg List.head? hs
        simpa using this
      rw [List.dropWhile_cons, hy, if_neg (by simp [hx])]

theorem pstrip_idem (t : List Char) : pstrip (pstrip t) = pstrip t := by
  have h0 : pstrip t = (t.dropWhile isSpaceCh).rdropWhile isSpaceCh := rfl
  have h1 : (pstrip t).dropWhile isSpaceCh = pstrip t := by
    rw [h0]
    exact dropWhile_fix_rdropWhile isSpaceCh _ (List.dropWhile_idempotent _ _)
  show ((pstrip t).dropWhile isSpaceCh).rdropWhile isSpaceCh = pstrip t
  rw [h1, h0]
  exact List.rdropWhile_idempotent _ _

/-! ## Claims -/

/-- **C1** (code_bug evidence).  The spec's corpus store contract says
`save(fragments, vectors?)` persists optional vectors and `load()` returns
each fragment carrying the vector it was saved with; `backend/main.py` even
calls `store.save_chunks(all_chunks, embeddings=embeddings)` and
`store.replace_chunks(remaining)`.  But `ChunkStore.save_chunks` in
`backend/storage/store.py` accepts no vectors and serializes only `text`,
`source_file`, `page`, `chunk_index` — so a round trip preserves the
fragments and their order but every loaded record's `embedding` is `None`,
and no vector can be persisted at all. -/
theorem c1_store_roundtrip_drops_vectors :
    (∀ cs : List Chunk, load_chunks (some (save_chunks cs)) = cs.map chunkToRecord) ∧
    (∀ cs : List Chunk,
      (load_chunks (some (save_chunks cs))).all (fun r => r.embedding = none) = true) ∧
    load_chunks (some (save_chunks [⟨"hello world".toList, "doc.pdf", 1, 0⟩])) =
      [⟨"hello world".toList, "doc.pdf", 1, 0, none⟩] := by
  refine ⟨fun cs => rfl, fun cs => ?_, rfl⟩
  simp [load_chunks, save_chunks, List.all_eq_true, chunkToRecord]

set_option maxRecDepth 8000 in
/-- **C5** (counterexample).  A page consisting of the single sentence
`'a'*200 ++ " " ++ 'b'*250` (451 characters, no sentence terminator) is
longer than `max_chars = 400` (the chunker defaults `chunk_size=400`,
`overlap=50`), yet `chunk_text` yields **two** fragments for it, not one:
`_split_sentences` word-splits any segment longer than its fixed
`max_part_len = 400` ceiling into several parts, and the packing loop then
closes a chunk between them. -/
theorem c5_counterexample :
    (chunk_text [⟨List.replicate 200 'a' ++ ' ' :: List.replicate 250 'b', "doc.pdf", 1⟩]
      400 50).length = 2 := by decide

/-- **C5** (amended).  A page whose text consists of a single sentence — a
single unit of the `re.split(r"(?<=[.!?])\s+|\n+", ...)` sentence scan, which
admits internal terminator characters (`"3.14"`) and a trailing terminator
not followed by whitespace (`"... dot."`) — longer than `max_chars` yields
exactly one fragment **provided its stripped length is no more than the
word-splitting ceiling of 400 characters**: `_split_sentences` keeps the
unit whole and the packing loop never closes a chunk while its unit list is
still empty.  Beyond 400 characters the word-boundary fallback produces
several parts and the page can chunk into several fragments (see the
counterexample).  (The sentence scan emits one unit exactly when no
separator fires, in which case the unit is the page text itself, so the
single-sentence hypothesis is `sentSplit none [] text = [text]`.) -/
theorem c5_single_long_sentence_one_chunk (text : List Char) (sf : String)
    (pg chunk_size overlap : ℕ)
    (hsingle : sentSplit none [] text = [text])
    (hne : pstrip text ≠ [])
    (hlong : chunk_size < (pstrip text).length)
    (hceil : (pstrip text).length ≤ 400) :
    chunk_text [⟨text, sf, pg⟩] chunk_size overlap = [⟨pstrip text, sf, pg, 0⟩] := by
  have hsent : split_sentences text = [pstrip text] := by
    rw [split_sentences, hsingle]
    simp [hne, hceil]
  have hpage : chunk_page_text text sf pg chunk_size overlap =
      [⟨pstrip text, sf, pg, 0⟩] := by
    rw [chunk_page_text, if_neg hne]
    rw [hsent]
    simp only [List.foldl_cons, List.foldl_nil]
    rw [if_neg (by simp)]
    simp [joinSpace, hne, pstrip_idem]
  rw [chunk_text]
  simp [hpage]

/-- **C5** witness: a 25-character single-sentence page with internal dots
and a trailing period, with `max_chars = 10`, yields exactly one fragment. -/
theorem c5_witness :
    chunk_text [⟨"Pi is 3.14, trailing dot.".toList, "f.pdf", 1⟩] 10 3 =
      [⟨pstrip "Pi is 3.14, trailing dot.".toList, "f.pdf", 1, 0⟩] :=
  c5_single_long_sentence_one_chunk "Pi is 3.14, trailing dot.".toList "f.pdf" 1 10 3
    (by decide) (by decide) (by decide) (by decide)

/-- **C8**.  `detect_intent "what is RAG?"` is `knowledge_query`, and
`transform_query` rewrites the input to a string containing both
`"definition explanation of"` (the first definition template) and the
acronym expansion `"retrieval augmented generation"`. -/
theorem c8_what_is_rag :
    detect_intent "what is RAG?".toList = .knowledge_query ∧
    containsSub (transform_query "what is RAG?".toList)
      "definition explanation of".toList = true ∧
    containsSub (transform_query "what is RAG?".toList)
      "retrieval augmented generation".toList = true := by
  refine ⟨by decide, by decide, by decide⟩

/-- **C2**.  `BM25Index.search` on an index built from the corpus: an empty
corpus or a query with no tokens yields `[]`; otherwise every fragment is
scored with the tokenized query, only strictly positive scores survive, the
output is sorted by score descending with ties in the fragments' original
order, is truncated to `top_k`, and contains every positive-scoring fragment
unless already full. -/
theorem c2_bm25_search (lg : ℚ → ℚ) (chunks : List Record) (query : List Char)
    (top_k : ℕ) :
    (chunks = [] → (BM25Index.build chunks).search lg query top_k = []) ∧
    (tokenize query = [] → (BM25Index.build chunks).search lg query top_k = []) ∧
    ((BM25Index.build chunks).search lg query top_k).length ≤ top_k ∧
    (∀ p ∈ (BM25Index.build chunks).search lg query top_k,
      p.1 < chunks.length ∧
      p.2 = (BM25Index.build chunks).score lg (tokenize query) p.1 ∧ 0 < p.2) ∧
    ((BM25Index.build chunks).search lg query top_k).Pairwise
      (fun a b => b.2 < a.2 ∨ (a.2 = b.2 ∧ a.1 < b.1)) ∧
    (∀ i, i < chunks.length →
      0 < (BM25Index.build chunks).score lg (tokenize query) i →
      ((BM25Index.build chunks).search lg query top_k).length = top_k ∨
        (i, (BM25Index.build chunks).score lg (tokenize query) i) ∈
          (BM25Index.build chunks).search lg query top_k) := by
  have hempty1 : chunks = [] → (BM25Index.build chunks).search lg query top_k = [] := by
    intro h
    subst h
    simp [BM25Index.search, BM25Index.build]
  have hempty2 : tokenize query = [] →
      (BM25Index.build chunks).search lg query top_k = [] := by
    intro h
    by_cases hdt : (BM25Index.build chunks).doc_tokens = []
    · simp [BM25Index.search, hdt]
    · simp [BM25Index.search, hdt, h]
  by_cases hq : tokenize query = []
  · have hr := hempty2 hq
    refine ⟨hempty1, hempty2, by rw [hr]; simp, by rw [hr]; simp, by rw [hr]; simp, ?_⟩
    intro i _ hpos
    exfalso
    rw [BM25Index.score] at hpos
    by_cases hg : (BM25Index.build chunks).doc_tokens.length ≤ i
    · rw [if_pos hg] at hpos
      exact absurd hpos (by norm_num)
    · rw [if_neg hg, hq] at hpos
      simp [List.dedup] at hpos
  · by_cases hc : chunks = []
    · have hr := hempty1 hc
      refine ⟨hempty1, hempty2, by rw [hr]; simp, by rw [hr]; simp, by rw [hr]; simp, ?_⟩
      intro i hi _
      rw [hc] at hi
      simp at hi
    · have hdt : (BM25Index.build chunks).doc_tokens ≠ [] := by
        simp [BM25Index.build, hc]
      have hsr : (BM25Index.build chunks).search lg query top_k =
          (sortDesc (((List.range (BM25Index.build chunks).N).map
            (fun i => (i, (BM25Index.build chunks).score lg (tokenize query) i))).filter
              (fun p => decide (0 < p.2)))).take top_k := by
        rw [BM25Index.search]
        simp only [if_neg hdt, if_neg hq]
      have hN : (BM25Index.build chunks).N = chunks.length := rfl
      refine ⟨hempty1, hempty2, ?_, ?_, ?_, ?_⟩
      · rw [hsr]
        exact List.length_take_le _ _
      · intro p hp
        rw [hsr] at hp
        have h1 := (List.take_sublist _ _).subset hp
        have h2 := (sortDesc_perm _).subset h1
        rw [List.mem_filter] at h2
        have hpos : 0 < p.2 := of_decide_eq_true h2.2
        rw [List.mem_map] at h2
        obtain ⟨i, hi, hip⟩ := h2.1
        rw [List.mem_range, hN] at hi
        refine ⟨?_, ?_, hpos⟩
        · rw [← hip]
          exact hi
        · rw [← hip]
      · rw [hsr]
        have h1 : (List.range (BM25Index.build chunks).N).Pairwise (· < ·) :=
          List.pairwise_lt_range _
        have h2 : ((List.range (BM25Index.build chunks).N).map
            (fun i => (i, (BM25Index.build chunks).score lg (tokenize query) i))).Pairwise
            (fun a b => a.1 < b.1) :=
          h1.map _ (fun a b hab => hab)
        have h3 := h2.filter (fun p => decide (0 < p.2))
        have h3' : (((List.range (BM25Index.build chunks).N).map
            (fun i => (i, (BM25Index.build chunks).score lg (tokenize query) i))).filter
              (fun p => decide (0 < p.2))).Pairwise
            (fun a b => a.2 = b.2 → a.1 < b.1) :=
          h3.imp (by
            intro a b hab _
            exact hab)
        have h4 := sortDesc_pairwise_stable h3'
        exact (h4.sublist (List.take_sublist _ _)).imp (fun hab => hab)
      · intro i hi hpos
        have hmem : (i, (BM25Index.build chunks).score lg (tokenize query) i) ∈
            (((List.range (BM25Index.build chunks).N).map
              (fun j => (j, (BM25Index.build chunks).score lg (tokenize query) j))).filter
                (fun p => decide (0 < p.2))) := by
          rw [List.mem_filter]
          constructor
          · rw [List.mem_map]
            exact ⟨i, by rw [List.mem_range, hN]; exact hi, rfl⟩
          · exact decide_eq_true hpos
        have hmem2 := (sortDesc_perm _).mem_iff.mpr hmem
        rcases le_or_lt top_k (sortDesc (((List.range (BM25Index.build chunks).N).map
            (fun j => (j, (BM25Index.build chunks).score lg (tokenize query) j))).filter
              (fun p => decide (0 < p.2)))).length with hlen | hlen
        · left
          rw [hsr, List.length_take]
          omega
        · right
          rw [hsr, List.take_of_length_le (le_of_lt hlen)]
          exact hmem2

/-- **C2** witness: over the two-document corpus `["cat dog", "cat"]` with
`lg x = x - 1`, searching `"zzz"` (a token absent everywhere, scoring 0)
returns `[]`, an empty corpus returns `[]`, an empty-token query returns
`[]`, and document 0 scores positively for `"cat dog"` so it appears in the
(not yet full) result. -/
theorem c2_witness :
    (BM25Index.build []).search (fun x => x - 1) "cat".toList 5 = [] ∧
    (BM25Index.build [⟨"cat dog".toList, "f", 1, 0, none⟩,
      ⟨"cat".toList, "f", 1, 1, none⟩]).search (fun x => x - 1) "??".toList 5 = [] ∧
    (((BM25Index.build [⟨"cat dog".toList, "f", 1, 0, none⟩,
        ⟨"cat".toList, "f", 1, 1, none⟩]).search (fun x => x - 1) "cat dog".toList 5).length = 5 ∨
      (0, (BM25Index.build [⟨"cat dog".toList, "f", 1, 0, none⟩,
        ⟨"cat".toList, "f", 1, 1, none⟩]).score (fun x => x - 1)
          (tokenize "cat dog".toList) 0) ∈
        (BM25Index.build [⟨"cat dog".toList, "f", 1, 0, none⟩,
          ⟨"cat".toList, "f", 1, 1, none⟩]).search (fun x => x - 1) "cat dog".toList 5) := by
  refine ⟨?_, ?_, ?_⟩
  · exact (c2_bm25_search (fun x => x - 1) [] "cat".toList 5).1 rfl
  · exact (c2_bm25_search (fun x => x - 1) [⟨"cat dog".toList, "f", 1, 0, none⟩,
      ⟨"cat".toList, "f", 1, 1, none⟩] "??".toList 5).2.1 (by decide)
  · exact (c2_bm25_search (fun x => x - 1) [⟨"cat dog".toList, "f", 1, 0, none⟩,
      ⟨"cat".toList, "f", 1, 1, none⟩] "cat dog".toList 5).2.2.2.2.2 0 (by decide)
      (of_decide_eq_true (by with_unfolding_all rfl))

/-- **C3**.  `rerank_by_semantic`: the output has at most `top_k` entries;
every entry's position comes from the fused candidate list and points at a
chunk that *has* a stored embedding, its score being the cosine similarity of
that embedding with the query (so vectorless candidates are excluded rather
than scored 0); and the output is ordered by score descending.  Quantified
over every norm function `nrm`, hence in particular the Euclidean norm. -/
theorem c3_rerank (nrm : List ℚ → ℚ) (rrf_results : List Scored)
    (query_embedding : List ℚ) (chunks : List Record) (top_k : ℕ) :
    (rerank_by_semantic nrm rrf_results query_embedding chunks top_k).length ≤ top_k ∧
    (∀ p ∈ rerank_by_semantic nrm rrf_results query_embedding chunks top_k,
      p.1 ∈ rrf_results.map Prod.fst ∧
      ∃ c, chunks.get? p.1 = some c ∧ ∃ e, c.embedding = some e ∧
        p.2 = dotQ (normalizeVec nrm query_embedding) (normalizeVec nrm e)) ∧
    (rerank_by_semantic nrm rrf_results query_embedding chunks top_k).Pairwise
      (fun a b => b.2 ≤ a.2) := by
  by_cases hc : rrf_results = [] ∨ chunks = []
  · have hr : rerank_by_semantic nrm rrf_results query_embedding chunks top_k = [] := by
      rw [rerank_by_semantic, if_pos hc]
    rw [hr]
    refine ⟨by simp, by simp, by simp⟩
  · have hr : rerank_by_semantic nrm rrf_results query_embedding chunks top_k =
        (sortDesc (rrf_results.filterMap (fun p =>
          match chunks.get? p.1 with
          | none => none
          | some c => c.embedding.map (fun e =>
              (p.1, dotQ (normalizeVec nrm query_embedding) (normalizeVec nrm e)))))).take
          top_k := by
      rw [rerank_by_semantic, if_neg hc]
    rw [hr]
    refine ⟨List.length_take_le _ _, ?_, ?_⟩
    · intro p hp
      have h1 := (List.take_sublist _ _).subset hp
      have h2 := (sortDesc_perm _).subset h1
      rw [List.mem_filterMap] at h2
      obtain ⟨q, hq, hfq⟩ := h2
      cases hget : chunks.get? q.1 with
      | none => rw [hget] at hfq; simp at hfq
      | some c =>
        rw [hget] at hfq
        dsimp only at hfq
        cases hemb : c.embedding with
        | none =>
          rw [hemb] at hfq
          exact absurd hfq (by simp)
        | some e =>
          rw [hemb] at hfq
          dsimp only [Option.map] at hfq
          injection hfq with hfq
          refine ⟨?_, c, ?_, e, hemb, ?_⟩
          · rw [← hfq]
            exact (show q.1 ∈ rrf_results.map Prod.fst from
              List.mem_map_of_mem Prod.fst hq)
          · rw [← hfq]
            exact hget
          · rw [← hfq]
    · have h1 := sortDesc_sorted (rrf_results.filterMap (fun p =>
        match chunks.get? p.1 with
        | none => none
        | some c => c.embedding.map (fun e =>
            (p.1, dotQ (normalizeVec nrm query_embedding) (normalizeVec nrm e)))))
      exact (h1.sublist (List.take_sublist _ _)).imp (fun hab => hab)

set_option maxRecDepth 4000 in
/-- **C3** witness: candidates `0` (has an embedding), `1` (vectorless) and
`5` (out of range); the output respects `top_k` and its head position is one
of the fused candidate positions. -/
theorem c3_witness :
    ((rerank_by_semantic (fun v => v.sum) [(0, 1), (1, 1), (5, 1)] [0]
      [⟨"a".toList, "f", 1, 0, some [2]⟩, ⟨"b".toList, "f", 1, 1, none⟩] 5).length ≤ 5) ∧
    (rerank_by_semantic (fun v => v.sum) [(0, 1), (1, 1), (5, 1)] [0]
        [⟨"a".toList, "f", 1, 0, some [2]⟩, ⟨"b".toList, "f", 1, 1, none⟩] 5).headI.1 ∈
      [(0, (1 : ℚ)), (1, 1), (5, 1)].map Prod.fst := by
  constructor
  · exact (c3_rerank (fun v => v.sum) [(0, 1), (1, 1), (5, 1)] [0]
      [⟨"a".toList, "f", 1, 0, some [2]⟩, ⟨"b".toList, "f", 1, 1, none⟩] 5).1
  · exact ((c3_rerank (fun v => v.sum) [(0, 1), (1, 1), (5, 1)] [0]
      [⟨"a".toList, "f", 1, 0, some [2]⟩, ⟨"b".toList, "f", 1, 1, none⟩] 5).2.1
      _ (of_decide_eq_true (by with_unfolding_all rfl))).1

theorem getD_of_get?_some {α : Type} (l : List α) (n : ℕ) (a d : α)
    (h : l.get? n = some a) : l.getD n d = a := by
  rw [List.getD_eq_getElem?_getD, ← List.get?_eq_getElem?, h]
  rfl

theorem getD_eq_get?_getD {α : Type} (l : List α) (n : ℕ) (d : α) :
    l.getD n d = (l.get? n).getD d := by
  rw [List.getD_eq_getElem?_getD, ← List.get?_eq_getElem?]

/-- **C7**.  The BM25 scoring function is monotonically non-decreasing in a
term's frequency for a fixed document length: over any index state with the
source's `k1 = 1.5`, `b = 0.75`, a non-negative `avgdl`, `df ≤ N` for the
term (all of which hold for built indexes), and a logarithm that is
non-negative on `[1, ∞)` (true of `math.log` since `_idf`'s argument is
`≥ 1`), a document with the same stored length, identical counts for every
other term and a higher count for the query term `t` scores at least as
high.  (`doc_len` is stored separately from `doc_tokens`, so length can be
held fixed as the claim requires.) -/
theorem c7_bm25_tf_monotone (idx : BM25Index) (lg : ℚ → ℚ)
    (hlg : ∀ x : ℚ, 1 ≤ x → 0 ≤ lg x)
    (hk1 : idx.k1 = 3 / 2) (hb : idx.b = 3 / 4) (havg : 0 ≤ idx.avgdl)
    (q : List (List Char)) (t : List Char) (i j : ℕ) (di dj : List (List Char))
    (hi : idx.doc_tokens.get? i = some di) (hj : idx.doc_tokens.get? j = some dj)
    (hdl : idx.doc_len.get? i = idx.doc_len.get? j)
    (hdf : idx.doc_freq t ≤ idx.N)
    (ht : t ∈ q)
    (hother : ∀ s, s ≠ t → di.count s = dj.count s)
    (hmono : di.count t ≤ dj.count t) :
    idx.score lg q i ≤ idx.score lg q j := by
  have hilt : i < idx.doc_tokens.length := by
    by_contra hc
    rw [List.get?_eq_none.mpr (by omega)] at hi
    exact Option.noConfusion hi
  have hjlt : j < idx.doc_tokens.length := by
    by_contra hc
    rw [List.get?_eq_none.mpr (by omega)] at hj
    exact Option.noConfusion hj
  rw [BM25Index.score, BM25Index.score, if_neg (by omega), if_neg (by omega)]
  rw [getD_of_get?_some _ _ _ _ hi, getD_of_get?_some _ _ _ _ hj]
  rw [getD_eq_get?_getD idx.doc_len i 0, getD_eq_get?_getD idx.doc_len j 0, hdl]
  apply List.sum_le_sum
  intro u _
  set dl : ℕ := (idx.doc_len.get? j).getD 0 with hdlv
  by_cases hu : u = t
  · subst hu
    simp only [BM25Index.termScore]
    have heps : (0 : ℚ) < idx.avgdl + eps := by
      rw [eps]
      positivity
    have hnorm : (0 : ℚ) <
        idx.k1 * (1 - idx.b + idx.b * (dl : ℚ) / (idx.avgdl + eps)) := by
      rw [hk1, hb]
      have h2 : (0 : ℚ) ≤ 3 / 4 * (dl : ℚ) / (idx.avgdl + eps) := by positivity
      nlinarith
    have hidf : 0 ≤ idx.idf lg u := by
      rw [BM25Index.idf]
      by_cases hdf0 : idx.doc_freq u = 0
      · rw [if_pos hdf0]
      · rw [if_neg hdf0]
        apply hlg
        have h1 : (0 : ℚ) < (idx.doc_freq u : ℚ) + 1 / 2 := by positivity
        have h2 : (0 : ℚ) ≤ (idx.N : ℚ) - (idx.doc_freq u : ℚ) + 1 / 2 := by
          have : (idx.doc_freq u : ℚ) ≤ (idx.N : ℚ) := by exact_mod_cast hdf
          linarith
        have := div_nonneg h2 (le_of_lt h1)
        linarith
    by_cases hf1 : di.count u = 0
    · rw [if_pos hf1]
      by_cases hf2 : dj.count u = 0
      · rw [if_pos hf2]
      · rw [if_neg hf2]
        have hden : (0 : ℚ) < (dj.count u : ℚ) +
            idx.k1 * (1 - idx.b + idx.b * (dl : ℚ) / (idx.avgdl + eps)) := by
          have : (0 : ℚ) ≤ (dj.count u : ℚ) := by positivity
          linarith
        apply div_nonneg
        · apply mul_nonneg hidf
          rw [hk1]
          positivity
        · exact le_of_lt hden
    · have hf2 : dj.count u ≠ 0 := by omega
      rw [if_neg hf1, if_neg hf2]
      have hc12 : (di.count u : ℚ) ≤ (dj.count u : ℚ) := by exact_mod_cast hmono
      have hd1 : (0 : ℚ) < (di.count u : ℚ) +
          idx.k1 * (1 - idx.b + idx.b * (dl : ℚ) / (idx.avgdl + eps)) := by
        have : (0 : ℚ) ≤ (di.count u : ℚ) := by positivity
        linarith
      have hd2 : (0 : ℚ) < (dj.count u : ℚ) +
          idx.k1 * (1 - idx.b + idx.b * (dl : ℚ) / (idx.avgdl + eps)) := by
        have : (0 : ℚ) ≤ (dj.count u : ℚ) := by positivity
        linarith
      have hk1pos : (0 : ℚ) ≤ idx.k1 + 1 := by rw [hk1]; norm_num
      have key : (di.count u : ℚ) * (idx.k1 + 1) *
          ((dj.count u : ℚ) + idx.k1 *
            (1 - idx.b + idx.b * (dl : ℚ) / (idx.avgdl + eps))) ≤
          (dj.count u : ℚ) * (idx.k1 + 1) *
          ((di.count u : ℚ) + idx.k1 *
            (1 - idx.b + idx.b * (dl : ℚ) / (idx.avgdl + eps))) := by
        nlinarith [mul_le_mul_of_nonneg_right hc12 (le_of_lt hnorm)]
      rw [div_le_div_iff hd1 hd2]
      nlinarith [mul_le_mul_of_nonneg_left key hidf]
  · simp only [BM25Index.termScore]
    rw [hother u hu]

/-- **C7** witness: a hand-checked index state — two documents of stored
length 5 with term counts 1 and 2 for `"a"` — scores non-decreasingly with
`lg x = x - 1`. -/
theorem c7_witness :
    (BM25Index.score (fun x => x - 1)
      ⟨3 / 2, 3 / 4, [["a".toList], ["a".toList, "a".toList]], [5, 5], 2,
        fun _ => 1, 2⟩ ["a".toList] 0) ≤
    (BM25Index.score (fun x => x - 1)
      ⟨3 / 2, 3 / 4, [["a".toList], ["a".toList, "a".toList]], [5, 5], 2,
        fun _ => 1, 2⟩ ["a".toList] 1) := by
  apply c7_bm25_tf_monotone
    ⟨3 / 2, 3 / 4, [["a".toList], ["a".toList, "a".toList]], [5, 5], 2,
      fun _ => 1, 2⟩ (fun x => x - 1)
    (fun x hx => by show (0 : ℚ) ≤ x - 1; linarith) rfl rfl (by norm_num)
    ["a".toList] "a".toList 0 1 ["a".toList] ["a".toList, "a".toList]
    rfl rfl rfl (by norm_num) (by decide)
  · intro s hs
    simp [List.count_cons]
    exact fun hc => hs hc.symm
  · decide

/-- **C10**.  `BM25Index.score` iterates over `set(query_tokens)`, so the
score depends only on the *set* of query tokens: two query token lists with
the same token set score identically, and in particular a list with
duplicates scores exactly as its deduplicated form. -/
theorem c10_score_depends_on_token_set (idx : BM25Index) (lg : ℚ → ℚ) (i : ℕ) :
    (∀ q q' : List (List Char), q.toFinset = q'.toFinset →
      idx.score lg q i = idx.score lg q' i) ∧
    (∀ q : List (List Char), idx.score lg q i = idx.score lg q.dedup i) := by
  constructor
  · intro q q' h
    have hperm : List.Perm q.dedup q'.dedup := by
      apply Multiset.coe_eq_coe.mp
      have := congrArg Finset.val h
      simpa [List.toFinset, Multiset.toFinset] using this
    rw [BM25Index.score, BM25Index.score]
    rcases Nat.lt_or_ge i idx.doc_tokens.length with hi | hi
    · rw [if_neg (by omega), if_neg (by omega)]
      exact (hperm.map _).sum_eq
    · rw [if_pos (by omega), if_pos (by omega)]
  · intro q
    rw [BM25Index.score, BM25Index.score, List.dedup_idem]

/-! ### RRF accumulation lemmas -/

/-- The total RRF contribution of fragment position `idx` in one ranked list,
ranks starting at `rank`. -/
def rankSum (k idx : ℕ) : List Scored → ℕ → ℚ
  | [], _ => 0
  | p :: rest, rank =>
    (if p.1 = idx then 1 / ((k : ℚ) + (rank : ℚ)) else 0) + rankSum k idx rest (rank + 1)

theorem rankSum_eq_zero (k idx : ℕ) : ∀ (l : List Scored) (rank : ℕ),
    idx ∉ l.map Prod.fst → rankSum k idx l rank = 0 := by
  intro l
  induction l with
  | nil => intro rank _; rfl
  | cons p rest ih =>
    intro rank h
    rw [rankSum]
    have hp : p.1 ≠ idx := by
      intro hc; exact h (by simp [hc.symm])
    rw [if_neg hp, ih (rank + 1) (fun hc => h (by simp [hc]))]
    simp

theorem lookup_upsert (m : List Scored) (i : ℕ) (v : ℚ) :
    (upsert m i v).lookup i = some ((m.lookup i).getD 0 + v) := by
  induction m with
  | nil => simp [upsert, List.lookup]
  | cons q rest ih =>
    rw [upsert]
    by_cases h : q.1 = i
    · rw [if_pos h]
      have hbeq : (i == q.1) = true := beq_iff_eq.mpr h.symm
      simp [List.lookup, hbeq, add_comm]
    · rw [if_neg h]
      have hbeq : (i == q.1) = false := beq_eq_false_iff_ne.mpr (fun hc => h hc.symm)
      simp [List.lookup, hbeq, ih]

theorem lookup_upsert_ne (m : List Scored) (i j : ℕ) (v : ℚ) (h : j ≠ i) :
    (upsert m i v).lookup j = m.lookup j := by
  induction m with
  | nil =>
    have hbeq : (j == i) = false := beq_eq_false_iff_ne.mpr h
    simp [upsert, List.lookup, hbeq]
  | cons q rest ih =>
    rw [upsert]
    by_cases hq : q.1 = i
    · rw [if_pos hq]
      have hbeq : (j == q.1) = false := beq_eq_false_iff_ne.mpr (by rw [hq]; exact h)
      simp [List.lookup, hbeq]
    · rw [if_neg hq]
      simp only [List.lookup]
      cases hjq : (j == q.1) <;> simp [ih]

theorem lookup_addRanks (k idx : ℕ) : ∀ (l m : List Scored) (rank : ℕ),
    (addRanks k m l rank).lookup idx =
      if idx ∈ l.map Prod.fst ∨ (m.lookup idx).isSome then
        some ((m.lookup idx).getD 0 + rankSum k idx l rank)
      else none := by
  intro l
  induction l with
  | nil =>
    intro m rank
    rw [addRanks, rankSum]
    cases h : m.lookup idx with
    | none => simp [h]
    | some v => simp [h]
  | cons p rest ih =>
    intro m rank
    rw [addRanks, ih, rankSum]
    by_cases hp : p.1 = idx
    · have hmem : idx ∈ (p :: rest).map Prod.fst := by
        rw [← hp]
        exact List.mem_map_of_mem Prod.fst (List.mem_cons_self p rest)
      rw [hp]
      simp [lookup_upsert, hmem, hp, add_assoc]
    · have h1 := lookup_upsert_ne m p.1 idx (1 / ((k : ℚ) + (rank : ℚ)))
        (fun hc => hp hc.symm)
      rw [h1, if_neg hp]
      have hmem : (idx ∈ p.1 :: rest.map Prod.fst) ↔ (idx ∈ rest.map Prod.fst) := by
        constructor
        · intro hc
          rcases List.mem_cons.mp hc with hc | hc
          · exact absurd hc.symm hp
          · exact hc
        · exact fun hc => List.mem_cons.mpr (Or.inr hc)
      by_cases hcc : idx ∈ List.map Prod.fst rest ∨ (List.lookup idx m).isSome = true
      · rw [if_pos hcc, if_pos (by
          rcases hcc with hcc | hcc
          · exact Or.inl (List.mem_cons.mpr (Or.inr hcc))
          · exact Or.inr hcc)]
        simp
      · rw [if_neg hcc, if_neg (by
          intro hcc2
          rcases hcc2 with hcc2 | hcc2
          · exact hcc (Or.inl (hmem.mp (by simpa using hcc2)))
          · exact hcc (Or.inr hcc2))]

theorem rankSum_of_single (k idx : ℕ) : ∀ (l : List Scored) (r rank : ℕ) (s : ℚ),
    l.get? r = some (idx, s) → (l.map Prod.fst).count idx = 1 →
    rankSum k idx l rank = 1 / ((k : ℚ) + (rank : ℚ) + (r : ℚ)) := by
  intro l
  induction l with
  | nil => intro r rank s h _; simp [List.get?] at h
  | cons p rest ih =>
    intro r rank s hget hcount
    cases r with
    | zero =>
      simp only [List.get?] at hget
      injection hget with hget
      rw [rankSum, if_pos (by rw [hget])]
      have hrest : idx ∉ rest.map Prod.fst := by
        intro hmem
        have : (rest.map Prod.fst).count idx ≥ 1 := List.count_pos_iff_mem.mpr hmem
        simp [List.count_cons, hget] at hcount
        omega
      rw [rankSum_eq_zero k idx rest (rank + 1) hrest]
      simp
    | succ r' =>
      simp only [List.get?] at hget
      have hmem : idx ∈ rest.map Prod.fst := by
        have := List.get?_mem hget
        exact List.mem_map_of_mem Prod.fst this
      have hp : p.1 ≠ idx := by
        intro hc
        have : (rest.map Prod.fst).count idx ≥ 1 := List.count_pos_iff_mem.mpr hmem
        simp [List.count_cons, hc] at hcount
        omega
      rw [rankSum, if_neg hp, ih r' (rank + 1) s hget
        (by simpa [List.count_cons, hp] using hcount)]
      push_cast
      ring_nf

theorem upsert_keys (m : List Scored) (i : ℕ) (v : ℚ) :
    (upsert m i v).map Prod.fst =
      if i ∈ m.map Prod.fst then m.map Prod.fst else m.map Prod.fst ++ [i] := by
  induction m with
  | nil => simp [upsert]
  | cons q rest ih =>
    rw [upsert]
    by_cases h : q.1 = i
    · rw [if_pos h]
      simp [h]
    · rw [if_neg h]
      by_cases hc : i ∈ rest.map Prod.fst
      · simp only [List.map_cons, ih, if_pos hc]
        rw [if_pos (List.mem_cons.mpr (Or.inr hc))]
      · simp only [List.map_cons, ih, if_neg hc]
        rw [if_neg (fun hcc => (List.mem_cons.mp hcc).elim
          (fun h1 => h h1.symm) hc)]
        simp

theorem upsert_keys_nodup (m : List Scored) (i : ℕ) (v : ℚ)
    (h : (m.map Prod.fst).Nodup) : ((upsert m i v).map Prod.fst).Nodup := by
  rw [upsert_keys]
  by_cases hc : i ∈ m.map Prod.fst
  · rwa [if_pos hc]
  · rw [if_neg hc, List.nodup_append]
    refine ⟨h, List.nodup_singleton i, ?_⟩
    intro a ha hai
    rw [List.mem_singleton] at hai
    subst hai
    exact hc ha

theorem addRanks_keys_nodup (k : ℕ) : ∀ (l m : List Scored),
    (m.map Prod.fst).Nodup → ∀ rank, ((addRanks k m l rank).map Prod.fst).Nodup := by
  intro l
  induction l with
  | nil => intro m h rank; exact h
  | cons p rest ih =>
    intro m h rank
    rw [addRanks]
    exact ih _ (upsert_keys_nodup m p.1 _ h) _

theorem lookup_of_mem_of_keys_nodup : ∀ (m : List Scored),
    (m.map Prod.fst).Nodup → ∀ p ∈ m, m.lookup p.1 = some p.2 := by
  intro m
  induction m with
  | nil => intro _ p hp; simp at hp
  | cons q rest ih =>
    intro h p hp
    rw [List.mem_cons] at hp
    rcases hp with hp | hp
    · subst hp
      simp [List.lookup]
    · rw [List.map_cons] at h
      have h' := List.nodup_cons.mp h
      have hq : p.1 ≠ q.1 := by
        intro hc
        have : q.1 ∈ rest.map Prod.fst := by
          rw [← hc]
          exact List.mem_map_of_mem Prod.fst hp
        exact h'.1 this
      have hbeq : (p.1 == q.1) = false := beq_eq_false_iff_ne.mpr hq
      simp only [List.lookup, hbeq]
      exact ih h'.2 p hp

/-- **C4**.  Reciprocal rank fusion: merging two empty lists yields `[]`; a
fragment position occurring exactly once, at 0-based index `r` (1-based rank
`r+1`) of one input list and absent from the other, accumulates total score
`1/(k + (r+1))`; a position ranked first in both lists (and nowhere else)
accumulates `2/(k+1)`; and every entry of `rrf_merge`'s output carries
exactly its accumulated total. -/
theorem c4_rrf_merge (k : ℕ) :
    (∀ top_k, rrf_merge [] [] k top_k = []) ∧
    (∀ (a b : List Scored) (idx r : ℕ) (s : ℚ),
      a.get? r = some (idx, s) → (a.map Prod.fst).count idx = 1 →
      idx ∉ b.map Prod.fst →
      (rrfScores a b k).lookup idx = some (1 / ((k : ℚ) + ((r : ℚ) + 1)))) ∧
    (∀ (a b : List Scored) (idx r : ℕ) (s : ℚ),
      b.get? r = some (idx, s) → (b.map Prod.fst).count idx = 1 →
      idx ∉ a.map Prod.fst →
      (rrfScores a b k).lookup idx = some (1 / ((k : ℚ) + ((r : ℚ) + 1)))) ∧
    (∀ (a' b' : List Scored) (idx : ℕ) (s1 s2 : ℚ),
      idx ∉ a'.map Prod.fst → idx ∉ b'.map Prod.fst →
      (rrfScores ((idx, s1) :: a') ((idx, s2) :: b') k).lookup idx =
        some (2 / ((k : ℚ) + 1))) ∧
    (∀ (a b : List Scored) (top_k : ℕ) (p : Scored), p ∈ rrf_merge a b k top_k →
      (rrfScores a b k).lookup p.1 = some p.2) := by
  have hA : ∀ (a : List Scored) (idx r : ℕ) (s : ℚ),
      a.get? r = some (idx, s) → (a.map Prod.fst).count idx = 1 →
      (addRanks k [] a 1).lookup idx = some (1 / ((k : ℚ) + ((r : ℚ) + 1))) := by
    intro a idx r s hget hcount
    rw [lookup_addRanks]
    have hmem : idx ∈ a.map Prod.fst :=
      List.mem_map_of_mem Prod.fst (List.get?_mem hget)
    rw [if_pos (Or.inl hmem)]
    rw [rankSum_of_single k idx a r 1 s hget hcount]
    simp [List.lookup]
    ring_nf
  refine ⟨?_, ?_, ?_, ?_, ?_⟩
  · intro top_k
    simp [rrf_merge, rrfScores, addRanks, sortDesc, List.insertionSort]
  · intro a b idx r s hget hcount hnb
    rw [rrfScores, lookup_addRanks]
    rw [if_pos (Or.inr (by rw [hA a idx r s hget hcount]; rfl))]
    rw [rankSum_eq_zero k idx b 1 hnb, hA a idx r s hget hcount]
    simp
  · intro a b idx r s hget hcount hna
    rw [rrfScores, lookup_addRanks]
    have h0 : (addRanks k [] a 1).lookup idx = none := by
      rw [lookup_addRanks]
      rw [if_neg (by simp [hna, List.lookup])]
    rw [if_pos (Or.inl (List.mem_map_of_mem Prod.fst (List.get?_mem hget)))]
    rw [h0, rankSum_of_single k idx b r 1 s hget hcount]
    simp
    ring_nf
  · intro a' b' idx s1 s2 hna hnb
    have hga : ((idx, s1) :: a').get? 0 = some (idx, s1) := rfl
    have hca : (((idx, s1) :: a').map Prod.fst).count idx = 1 := by
      simp [List.count_cons]
      rw [List.count_eq_zero]
      exact fun hc => hna hc
    rw [rrfScores, lookup_addRanks]
    rw [if_pos (Or.inr (by rw [hA _ idx 0 s1 hga hca]; rfl))]
    rw [hA _ idx 0 s1 hga hca]
    rw [rankSum, if_pos rfl, rankSum_eq_zero k idx b' 2 hnb]
    simp
    ring_nf
  · intro a b top_k p hp
    have hmem : p ∈ rrfScores a b k := by
      have h1 : p ∈ sortDesc (rrfScores a b k) :=
        (List.take_sublist _ _).subset hp
      exact (sortDesc_perm _).subset h1
    exact lookup_of_mem_of_keys_nodup _
      (addRanks_keys_nodup k b _ (addRanks_keys_nodup k a [] (by simp) 1) 1) p hmem

/-- **C4** witness: concrete instances of the empty-merge, single-list,
both-first and output conjuncts. -/
theorem c4_witness :
    rrf_merge [] [] 60 20 = [] ∧
    (rrfScores [(3, 5), (7, 2)] [] 60).lookup 7 = some (1 / 62) ∧
    (rrfScores [(1, 9)] [(1, 4)] 60).lookup 1 = some (2 / 61) := by
  refine ⟨(c4_rrf_merge 60).1 20, ?_, ?_⟩
  · have := (c4_rrf_merge 60).2.1 [(3, 5), (7, 2)] [] 7 1 2 (by decide) (by decide)
      (by decide)
    norm_num at this ⊢
    exact this
  · have := (c4_rrf_merge 60).2.2.2.1 [] [] 1 9 4 (by decide) (by decide)
    norm_num at this ⊢
    exact this

/-- **C6** (spec-modelled threshold).  When a knowledge query passes the
refusal filter, the corpus is non-empty, and the reranked list is non-empty
but its top cosine score is below the relevance threshold, the `/query`
endpoint answers with the fixed "insufficient evidence" message, an empty
source list, and does not invoke the generation service (retrieval and
embedding were invoked; generation was not). -/
theorem c6_threshold_insufficient_evidence (lg : ℚ → ℚ) (nrm : List ℚ → ℚ)
    (embedQ : List Char → List ℚ) (gen : List Char → List Record → String)
    (threshold : ℚ) (chunks_cache : List Record) (bm25_index : Option BM25Index)
    (question : List Char) (rr : List Scored)
    (hintent : detect_intent (pstrip question) = .knowledge_query)
    (hrefuse : (check_refusal (pstrip question)).should_refuse = false)
    (hchunks : chunks_cache ≠ [])
    (hrr : rerank_by_semantic nrm
      (hybrid_search lg nrm (embedQ (transform_query (pstrip question)))
        (transform_query (pstrip question)) chunks_cache bm25_index 20).1
      (embedQ (transform_query (pstrip question))) chunks_cache 5 = rr)
    (hne : rr ≠ []) (hbelow : rr.headI.2 < threshold) :
    queryHandler lg nrm embedQ gen threshold chunks_cache bm25_index question =
      .ok ⟨belowThresholdAnswer, [], true, true, false⟩ := by
  have hq : ¬ pstrip question = [] := by
    intro h
    rw [h] at hintent
    simp [detect_intent, pstrip] at hintent
  rw [queryHandler]
  simp only [if_neg hq, hintent, hrefuse, if_neg hchunks, hrr, if_neg hne,
    if_pos hbelow, Bool.false_eq_true, if_false]

/-- **C9**.  A query classified as a knowledge query whose (stripped) text
contains a standalone 16-digit numeral is refused: `check_refusal` reports a
PII refusal, and the `/query` endpoint returns the fixed PII refusal message
with an empty source list, invoking neither the embedding service, nor
retrieval, nor generation. -/
theorem c9_pii_16_digit_shortcircuit (lg : ℚ → ℚ) (nrm : List ℚ → ℚ)
    (embedQ : List Char → List ℚ) (gen : List Char → List Record → String)
    (threshold : ℚ) (chunks_cache : List Record) (bm25_index : Option BM25Index)
    (question : List Char)
    (hintent : detect_intent (pstrip question) = .knowledge_query)
    (hpii : cc16Match (pstrip question) = true) :
    (check_refusal (pstrip question)).should_refuse = true ∧
    (check_refusal (pstrip question)).reason = .PII ∧
    queryHandler lg nrm embedQ gen threshold chunks_cache bm25_index question =
      .ok ⟨(check_refusal (pstrip question)).message.getD "", [], false, false, false⟩ := by
  have hq : ¬ pstrip question = [] := by
    intro h
    rw [h] at hintent
    simp [detect_intent, pstrip] at hintent
  have hcr : (check_refusal (pstrip question)).should_refuse = true ∧
      (check_refusal (pstrip question)).reason = .PII := by
    rw [check_refusal]
    simp only [pstrip_idem]
    by_cases hssn : ssnMatch (pstrip question) = true
    · rw [if_pos hssn]
      exact ⟨rfl, rfl⟩
    · rw [if_neg hssn, if_pos hpii]
      exact ⟨rfl, rfl⟩
  refine ⟨hcr.1, hcr.2, ?_⟩
  rw [queryHandler]
  simp only [if_neg hq, hintent, hcr.1, if_true]

/-- **C6** witness: a one-chunk corpus whose stored vector is orthogonal (in
the modelled cosine) to the query embedding, with threshold 1: the reranked
list is `[(0, 0)]`, `0 < 1`, so the endpoint reports insufficient evidence
and generation is not called. -/
theorem c6_witness :
    queryHandler (fun _ => 0) (fun _ => 0) (fun _ => [0]) (fun _ _ => "answer") 1
      [⟨"doc text".toList, "a.pdf", 1, 0, some [1]⟩] none "what is RAG?".toList =
      .ok ⟨belowThresholdAnswer, [], true, true, false⟩ := by
  apply c6_threshold_insufficient_evidence (fun _ => 0) (fun _ => 0) (fun _ => [0])
    (fun _ _ => "answer") 1 [⟨"doc text".toList, "a.pdf", 1, 0, some [1]⟩] none
    "what is RAG?".toList [(0, 0)]
  · decide
  · decide
  · decide
  · exact of_decide_eq_true (by with_unfolding_all rfl)
  · decide
  · show ((0 : ℕ), (0 : ℚ)).2 < 1
    norm_num

/-- **C9** witness: `"what is 1234123412341234?"` is a knowledge query (it
contains the question word `what` and is 25 characters long) containing a
standalone 16-digit numeral; the endpoint refuses with the credit-card PII
message and empty sources, calling no collaborator. -/
theorem c9_witness :
    (check_refusal (pstrip "what is 1234123412341234?".toList)).should_refuse = true ∧
    (check_refusal (pstrip "what is 1234123412341234?".toList)).reason = .PII ∧
    queryHandler (fun _ => 0) (fun _ => 0) (fun _ => [0]) (fun _ _ => "answer") 1
      [] none "what is 1234123412341234?".toList =
      .ok ⟨(check_refusal (pstrip "what is 1234123412341234?".toList)).message.getD "",
        [], false, false, false⟩ :=
  c9_pii_16_digit_shortcircuit (fun _ => 0) (fun _ => 0) (fun _ => [0])
    (fun _ _ => "answer") 1 [] none "what is 1234123412341234?".toList
    (by decide) (by decide)

/-- **C10** witness. -/
theorem c10_witness :
    (BM25Index.build []).score id ["a".toList, "a".toList] 0 =
      (BM25Index.build []).score id ["a".toList] 0 :=
  (c10_score_depends_on_token_set (BM25Index.build []) id 0).1
    ["a".toList, "a".toList] ["a".toList] (by decide)

end Rag
